import Mathlib

/-
Verification of the file-system router core (path matcher, route table
first-match loop, page-module loader cancellation, metadata applier, and
the build-time route generator).

Pathnames and other strings handled by the router are embedded as
`List Char` (JS strings are sequences of code units; the router only ever
manipulates them character-wise).  Fallible percent-decoding is embedded
as `Option`, with `none` standing for the thrown `URIError`.
-/

/-- Abbreviation turning a Lean string literal into the `List Char` used
throughout the embedding. -/
def cs (s : String) : List Char := s.toList

/-! Pathname normalization and splitting (src/unnamed/part_000, lines 11-21) -/

/-- Embeds `normalizePathname`: empty pathname becomes `/`; a pathname other
than `/` that ends with `/` loses exactly that one final character
(`p.slice(0, -1)`); anything else is returned unchanged. -/
def normalizePathname (p : List Char) : List Char :=
  if p = [] then ['/']
  else if p ≠ ['/'] ∧ p.getLast? = some '/' then p.dropLast
  else p

/-- Splitting a character list on `/`, the embedding of JS `p.split('/')`:
the result is the list of (possibly empty) components between slashes. -/
def splitOnSlash : List Char → List (List Char)
  | [] => [[]]
  | c :: rest =>
    let r := splitOnSlash rest
    if c = '/' then [] :: r
    else (c :: r.headD []) :: r.tail

/-- Embeds `filter(Boolean)` on the component list: empty components are
dropped (an empty JS string is falsy). -/
def keepNonEmpty (xs : List (List Char)) : List (List Char) :=
  xs.filter (fun x => !x.isEmpty)

/-- Embeds `splitPathname`: normalize, the root path yields zero parts, any
other path is split on `/` with empty components filtered out. -/
def splitPathname (pathname : List Char) : List (List Char) :=
  let p := normalizePathname pathname
  if p = ['/'] then []
  else keepNonEmpty (splitOnSlash p)

/-! Percent decoding (model of the JS builtin `decodeURIComponent`)

`decodeURIComponent` is a platform builtin: it replaces each run of
`%XX` escapes by the characters whose UTF-8 encoding is that byte run and
throws `URIError` when a `%` is not followed by two hex digits or the byte
run is not valid UTF-8.  The model below mirrors that behaviour; `none`
stands for the thrown error. -/

/-- Value of a hexadecimal digit character, `none` for non-hex characters. -/
def hexVal (c : Char) : Option Nat :=
  if '0' ≤ c ∧ c ≤ '9' then some (c.toNat - '0'.toNat)
  else if 'a' ≤ c ∧ c ≤ 'f' then some (c.toNat - 'a'.toNat + 10)
  else if 'A' ≤ c ∧ c ≤ 'F' then some (c.toNat - 'A'.toNat + 10)
  else none

/-- A token of the escape scan: a literal character or one decoded escape
byte. -/
inductive UriTok
  | ch (c : Char)
  | byte (b : Nat)
deriving DecidableEq

/-- First pass of the decoder: each `%XX` becomes a byte token, every other
character a literal token; a `%` not followed by two hex digits fails. -/
def uriTokens : List Char → Option (List UriTok)
  | [] => some []
  | '%' :: h1 :: h2 :: rest =>
    match hexVal h1, hexVal h2 with
    | some a, some b => (uriTokens rest).map (fun ts => UriTok.byte (16 * a + b) :: ts)
    | _, _ => none
  | '%' :: _ => none
  | c :: rest => (uriTokens rest).map (fun ts => UriTok.ch c :: ts)

/-- A UTF-8 continuation byte. -/
def isCont (b : Nat) : Bool := 128 ≤ b && b < 192

/-- Second pass: byte tokens must form valid (shortest-form, non-surrogate)
UTF-8 sequences, each decoded to its scalar value; literal tokens pass
through. -/
def decodeUriTokens : List UriTok → Option (List Char)
  | [] => some []
  | UriTok.ch c :: ts => (decodeUriTokens ts).map (fun r => c :: r)
  | UriTok.byte b :: ts =>
    if b < 128 then
      (decodeUriTokens ts).map (fun r => Char.ofNat b :: r)
    else if 194 ≤ b && b ≤ 223 then
      match ts with
      | UriTok.byte b2 :: ts2 =>
        if isCont b2 then
          (decodeUriTokens ts2).map (fun r => Char.ofNat ((b - 192) * 64 + (b2 - 128)) :: r)
        else none
      | _ => none
    else if 224 ≤ b && b ≤ 239 then
      match ts with
      | UriTok.byte b2 :: UriTok.byte b3 :: ts2 =>
        if (if b = 224 then 160 ≤ b2 && b2 ≤ 191
            else if b = 237 then 128 ≤ b2 && b2 ≤ 159
            else isCont b2) && isCont b3 then
          (decodeUriTokens ts2).map
            (fun r => Char.ofNat ((b - 224) * 4096 + (b2 - 128) * 64 + (b3 - 128)) :: r)
        else none
      | _ => none
    else if 240 ≤ b && b ≤ 244 then
      match ts with
      | UriTok.byte b2 :: UriTok.byte b3 :: UriTok.byte b4 :: ts2 =>
        if (if b = 240 then 144 ≤ b2 && b2 ≤ 191
            else if b = 244 then 128 ≤ b2 && b2 ≤ 143
            else isCont b2) && isCont b3 && isCont b4 then
          (decodeUriTokens ts2).map
            (fun r =>
              Char.ofNat ((b - 240) * 262144 + (b2 - 128) * 4096 + (b3 - 128) * 64 + (b4 - 128)) :: r)
        else none
      | _ => none
    else none

/-- The decoder: tokenize, then validate and decode the byte runs. -/
def decodeURIComponent (s : List Char) : Option (List Char) :=
  match uriTokens s with
  | none => none
  | some ts => decodeUriTokens ts

/-! Route segments and the matcher (src/core/router/types.ts, src/unnamed/part_000 lines 23-50) -/

/-- Embeds the `RouteSegment` tagged union from `src/core/router/types.ts`. -/
inductive RouteSegment
  | static (value : List Char)
  | param (name : List Char)
  | catchAll (name : List Char)
deriving DecidableEq

/-- A bound parameter value: a single decoded string (`param`) or an ordered
sequence of decoded strings (`catchAll`). -/
inductive ParamValue
  | str (s : List Char)
  | strList (ss : List (List Char))
deriving DecidableEq

/-- Embeds the `Params` record as an insertion-ordered association list. -/
abbrev Params := List (List Char × ParamValue)

/-- JS object assignment `params[name] = v`: overwrites an existing key in
place, otherwise appends. -/
def setParam (ps : Params) (k : List Char) (v : ParamValue) : Params :=
  match ps with
  | [] => [(k, v)]
  | (k', v') :: rest => if k' = k then (k, v) :: rest else (k', v') :: setParam rest k v

/-- Decodes every part, left to right, failing on the first bad escape
(the embedding of `parts.slice(i).map(decodeURIComponent)`). -/
def decodeAll : List (List Char) → Option (List (List Char))
  | [] => some []
  | p :: ps =>
    match decodeURIComponent p with
    | none => none
    | some d => (decodeAll ps).map (fun r => d :: r)

/-- Outcome of one `matchRoute` call: a thrown decode error, a `null`
non-match, or a successful match with its bound params. -/
inductive MatchResult
  | decodeError
  | noMatch
  | matched (ps : Params)
deriving DecidableEq

/-- The segment walk of `matchRoute`, with the cursor `i` represented by the
list of still-unconsumed pathname parts:
`static` requires the next part to equal its value (an exhausted part list
reads `parts[i] = undefined`, which never equals a string value);
`param` requires a next part and binds its decoding;
`catchAll` binds the decoding of every remaining part and breaks out of the
walk with `i = parts.length`, so the final `i == parts.length` check always
passes; when the segment list is exhausted the final check requires every
part to have been consumed. -/
def matchCore : List RouteSegment → List (List Char) → Params → MatchResult
  | [], parts, params => if parts = [] then MatchResult.matched params else MatchResult.noMatch
  | RouteSegment.static v :: segs, parts, params =>
    match parts with
    | [] => MatchResult.noMatch
    | p :: rest => if p = v then matchCore segs rest params else MatchResult.noMatch
  | RouteSegment.param n :: segs, parts, params =>
    match parts with
    | [] => MatchResult.noMatch
    | p :: rest =>
      match decodeURIComponent p with
      | none => MatchResult.decodeError
      | some d => matchCore segs rest (setParam params n (ParamValue.str d))
  | RouteSegment.catchAll n :: _, parts, params =>
    match decodeAll parts with
    | none => MatchResult.decodeError
    | some ds => MatchResult.matched (setParam params n (ParamValue.strList ds))

/-- Embeds `matchRoute(segments, pathname)`. -/
def matchRoute (segments : List RouteSegment) (pathname : List Char) : MatchResult :=
  matchCore segments (splitPathname pathname) []

/-! The route table loop (src/unnamed/part_000, lines 137-145) -/

/-- Embeds the `Route` record (the async `importPage` loader carries no
matching-relevant data and is omitted). -/
structure Route where
  file : List Char
  path : List Char
  segments : List RouteSegment
deriving DecidableEq

/-- Outcome of the `FileRouter` matching loop: a propagated decode error, no
matching route (the caller renders the not-found view), or the first
matching route with its params. -/
inductive FirstResult
  | err
  | noRoute
  | found (r : Route) (ps : Params)
deriving DecidableEq

/-- Embeds the matching loop of the FileRouter component: for each route in
table order it calls matchRoute and returns the first truthy params object
together with its route; a thrown decode error propagates out of the loop. -/
def matchFirst : List Route → List Char → FirstResult
  | [], _ => FirstResult.noRoute
  | r :: rs, p =>
    match matchRoute r.segments p with
    | MatchResult.decodeError => FirstResult.err
    | MatchResult.matched ps => FirstResult.found r ps
    | MatchResult.noMatch => matchFirst rs p

/-- The parameter route `/a/[id]` of the table-order precedence example. -/
def routeParamAId : Route :=
  ⟨cs "a/[id].tsx", cs "/a/[id]", [RouteSegment.static (cs "a"), RouteSegment.param (cs "id")]⟩

/-- The static route `/a/b` of the table-order precedence example. -/
def routeStaticAB : Route :=
  ⟨cs "a/b.tsx", cs "/a/b", [RouteSegment.static (cs "a"), RouteSegment.static (cs "b")]⟩

/-! Metadata applier (src/unnamed/part_000, lines 52-65)

The DOM is modelled by the data it carries here: the document title and the
document-order list of `<meta>` tags in the head, each with a `name` and a
`content` attribute. -/

/-- Embeds the `Metadata` record from `src/core/router/types.ts`: optional
title and description (the source guards each field with a typeof string
check, i.e. presence of the string field). -/
structure Metadata where
  title : Option String
  description : Option String
deriving DecidableEq

/-- A `<meta>` element with its `name` and `content` attributes. -/
structure MetaTag where
  name : String
  content : String
deriving DecidableEq

/-- The document state touched by `applyMetadata`. -/
structure Doc where
  title : String
  metas : List MetaTag
deriving DecidableEq

/-- Embeds the description branch: the querySelector call returns the first
description meta tag in document order, whose content attribute is
overwritten; if there is none, a fresh tag is created and appended to the
head. -/
def upsertDescription : List MetaTag → String → List MetaTag
  | [], v => [⟨"description", v⟩]
  | t :: ts, v =>
    if t.name = "description" then ⟨"description", v⟩ :: ts
    else t :: upsertDescription ts v

/-- Embeds `applyMetadata(meta?)`: no-op when the record is absent; sets the
title when present; upserts the description when present. -/
def applyMetadata (meta : Option Metadata) (doc : Doc) : Doc :=
  match meta with
  | none => doc
  | some m =>
    let doc1 : Doc :=
      match m.title with
      | some t => ⟨t, doc.metas⟩
      | none => doc
    match m.description with
    | some d => ⟨doc1.title, upsertDescription doc1.metas d⟩
    | none => doc1

/-- Number of description tags in the document. -/
def descCount (doc : Doc) : Nat :=
  (doc.metas.filter (fun t => t.name = "description")).length

/-! Module loader cancellation (src/unnamed/part_000, lines 350-392)

The layout-capable `FileRouter` loads the matched page module in a
`useEffect` keyed by `match.route.file`.  Each effect run ("attempt") owns a
fresh `cancelled` flag; the effect cleanup sets it, and React runs the
cleanup of the previous effect before the next one starts.  The settled
promise commits its result with `if (!cancelled) setLoaded(...)` (resp.
`setLoadError`).  The model numbers attempts in navigation order, keeps the
list of their `cancelled` flags, and tags the displayed state with the
attempt that committed it. -/

/-- Result of one settled page-module load: the import resolved with a
usable module, or it rejected / lacked a default export. -/
inductive LoadOutcome
  | success
  | failure
deriving DecidableEq

/-- The displayed load state: `loading` (after every route-file change), or
the committed result of the attempt that wrote it. -/
inductive Display
  | loading
  | committed (attempt : Nat) (o : LoadOutcome)
deriving DecidableEq

/-- State of the loader: reading `flags.getD k true` gives the cancelled
flag of attempt `k` (an attempt that was never started counts as
cancelled). -/
structure LoaderState where
  flags : List Bool
  display : Display
deriving DecidableEq

/-- State before the first route resolution. -/
def loaderInit : LoaderState := ⟨[], Display.loading⟩

/-- The effect cleanup of the previous attempt: `cancelled = true` for the
last started attempt. -/
def cancelLast : List Bool → List Bool
  | [] => []
  | [_] => [true]
  | b :: b2 :: bs => b :: cancelLast (b2 :: bs)

/-- An externally observable loader event: a route-file change starting a
new load attempt, or the settling of the import promise of attempt `k`. -/
inductive LoadEvent
  | navigate
  | settle (k : Nat) (o : LoadOutcome)
deriving DecidableEq

/-- One step: `navigate` runs the previous cleanup (cancelling the last
attempt), starts a fresh attempt with `cancelled = false`, and resets the
displayed state to `loading` (both setLoaded and setLoadError reset to
null); `settle k o` commits the result of attempt `k` iff the flag of `k`
is still unset (the not-cancelled check before setLoaded / setLoadError). -/
def loaderStep (s : LoaderState) : LoadEvent → LoaderState
  | LoadEvent.navigate => ⟨cancelLast s.flags ++ [false], Display.loading⟩
  | LoadEvent.settle k o =>
    if s.flags.getD k true = false then ⟨s.flags, Display.committed k o⟩
    else s

/-- The loader state after a sequence of events from the initial state. -/
def loaderRun (es : List LoadEvent) : LoaderState :=
  es.foldl loaderStep loaderInit

/-- The loader invariant: every attempt but the most recent is cancelled,
and the displayed result, when there is one, belongs to the most recent
attempt. -/
def LoaderInv (s : LoaderState) : Prop :=
  (∀ j, j + 1 < s.flags.length → s.flags.getD j true = true)
  ∧ (∀ k o, s.display = Display.committed k o → k + 1 = s.flags.length)

/-! Build-time route generator (src/core/router/generate.ts) -/

/-- Embeds `isIgnoredRouteFile`: some slash-delimited component of the
relative posix path starts with an underscore. -/
def isIgnoredRouteFile (relPosix : List Char) : Bool :=
  (splitOnSlash relPosix).any (fun part =>
    match part with
    | [] => false
    | c :: _ => c == '_')

/-- Embeds `parseSegment`: `[...name]` is a catch-all, `[name]` a parameter,
anything else a static segment (`seg.slice(4, -1)` / `seg.slice(1, -1)`
strip the wrappers). -/
def parseSegment (seg : List Char) : RouteSegment :=
  if (cs "[...").isPrefixOf seg && (cs "]").isSuffixOf seg then
    RouteSegment.catchAll ((seg.drop 4).dropLast)
  else if (cs "[").isPrefixOf seg && (cs "]").isSuffixOf seg then
    RouteSegment.param ((seg.drop 1).dropLast)
  else RouteSegment.static seg

/-- Embeds `urlPath.replace(/\/+$/g, '')`: every trailing slash removed. -/
def dropTrailingSlashes (l : List Char) : List Char :=
  (l.reverse.dropWhile (fun c => c == '/')).reverse

/-- Embeds `fileToRoute(relPosixNoExt)`: a bare `index` becomes the empty
path, a trailing `/index` component is elided, the remaining fragments are
parsed into segments, and the URL path is `/` followed by the fragments. -/
def fileToRoute (relPosixNoExt : List Char) : List Char × List RouteSegment :=
  let p0 := if relPosixNoExt = cs "index" then [] else relPosixNoExt
  let p := if (cs "/index").isSuffixOf p0 then p0.take (p0.length - 6) else p0
  let urlPath := '/' :: p
  let segs := if p = [] then [] else keepNonEmpty (splitOnSlash p)
  let segments := segs.map parseSegment
  let path := if urlPath = ['/'] then ['/'] else dropTrailingSlashes urlPath
  (path, segments)

/-- One entry of the generated manifest (the `importPath`, derived from
`file` for the emitted import statement, carries no route data and is
omitted). -/
structure RouteRecord where
  file : List Char
  path : List Char
  segments : List RouteSegment
deriving DecidableEq

/-- Strict byte-wise lexicographic order on paths, the model of the
`localeCompare` sort key (the generated paths are ASCII). -/
def lexLt : List Char → List Char → Bool
  | [], [] => false
  | [], _ :: _ => true
  | _ :: _, [] => false
  | a :: as, b :: bs => if a = b then lexLt as bs else decide (a < b)

/-- Stable insertion for the `routes.sort` call: a new record goes after
existing records with an equal path. -/
def insertByPath (r : RouteRecord) : List RouteRecord → List RouteRecord
  | [] => [r]
  | x :: xs => if lexLt r.path x.path then r :: x :: xs else x :: insertByPath r xs

/-- Embeds the data part of `generateFsRoutes`: keep the `.tsx` files, drop
ignored ones, strip the extension, map through `fileToRoute`, and sort by
path. -/
def generateFsRoutes (relFiles : List (List Char)) : List RouteRecord :=
  let recs := ((relFiles.filter (fun f => (cs ".tsx").isSuffixOf f)).filter
      (fun f => !isIgnoredRouteFile f)).map (fun rel =>
    let pr := fileToRoute (rel.take (rel.length - 4))
    ⟨rel, pr.1, pr.2⟩)
  recs.foldl (fun acc r => insertByPath r acc) []

/-! Helper lemmas about splitting and normalization -/

theorem splitOnSlash_ne_nil (l : List Char) : splitOnSlash l ≠ [] := by
  cases l with
  | nil => simp [splitOnSlash]
  | cons c rest => simp only [splitOnSlash]; split <;> simp

theorem splitOnSlash_concat_slash (l : List Char) :
    splitOnSlash (l ++ ['/']) = splitOnSlash l ++ [[]] := by
  induction l with
  | nil => simp [splitOnSlash]
  | cons c rest ih =>
    obtain ⟨p, ps, hps⟩ : ∃ p ps, splitOnSlash rest = p :: ps := by
      cases hr : splitOnSlash rest with
      | nil => exact absurd hr (splitOnSlash_ne_nil rest)
      | cons p ps => exact ⟨p, ps, rfl⟩
    simp only [List.cons_append, splitOnSlash, List.append_eq]
    rw [ih, hps]
    by_cases h : c = '/'
    · simp [h]
    · simp [h]

theorem keepNonEmpty_append (xs ys : List (List Char)) :
    keepNonEmpty (xs ++ ys) = keepNonEmpty xs ++ keepNonEmpty ys := by
  simp [keepNonEmpty, List.filter_append]

theorem keepNonEmpty_concat_slash (l : List Char) :
    keepNonEmpty (splitOnSlash (l ++ ['/'])) = keepNonEmpty (splitOnSlash l) := by
  rw [splitOnSlash_concat_slash, keepNonEmpty_append]
  simp [keepNonEmpty]

theorem normalizePathname_concat_slash (q : List Char) (hq : q ≠ []) :
    normalizePathname (q ++ ['/']) = q := by
  have h2 : q ++ ['/'] ≠ ['/'] := by
    intro h
    have := congrArg List.length h
    simp at this
    exact hq this
  simp [normalizePathname, h2]

theorem normalizePathname_no_slash (p : List Char) (h0 : p ≠ []) (h : p.getLast? ≠ some '/') :
    normalizePathname p = p := by
  simp [normalizePathname, h0, h]

theorem splitPathname_eq (p : List Char) :
    splitPathname p = keepNonEmpty (splitOnSlash p) := by
  rcases List.eq_nil_or_concat' p with h | ⟨q, b, h⟩
  · subst h; decide
  · subst h
    by_cases hb : b = '/'
    · subst hb
      by_cases hq : q = []
      · subst hq; decide
      · have hnorm := normalizePathname_concat_slash q hq
        simp only [splitPathname, hnorm]
        by_cases hq2 : q = ['/']
        · subst hq2; decide
        · rw [if_neg hq2, keepNonEmpty_concat_slash]
    · have h2 : (q ++ [b]).getLast? = some b := by simp
      have hnorm : normalizePathname (q ++ [b]) = q ++ [b] :=
        normalizePathname_no_slash _ (by simp) (by simp [h2, hb])
      have hne : q ++ [b] ≠ ['/'] := by
        intro hcontra
        rw [hcontra] at h2
        simp at h2
        exact hb h2.symm
      simp only [splitPathname, hnorm, if_neg hne]

theorem keep_split_replicate (p : List Char) (n : Nat) :
    keepNonEmpty (splitOnSlash (p ++ List.replicate n '/')) = keepNonEmpty (splitOnSlash p) := by
  induction n with
  | zero => simp
  | succ n ih =>
    rw [List.replicate_succ', ← List.append_assoc, splitOnSlash_concat_slash, keepNonEmpty_append]
    have h : keepNonEmpty [([] : List Char)] = [] := rfl
    rw [h, List.append_nil]
    exact ih

theorem matchCore_catchAll_break (pre : List RouteSegment) (n : List Char)
    (post : List RouteSegment) :
    ∀ parts params, matchCore (pre ++ RouteSegment.catchAll n :: post) parts params
      = matchCore (pre ++ [RouteSegment.catchAll n]) parts params := by
  induction pre with
  | nil => intro parts params; rfl
  | cons s pre ih =>
    intro parts params
    cases s with
    | static v =>
      simp only [List.cons_append, matchCore]
      cases parts with
      | nil => rfl
      | cons p rest => by_cases h : p = v <;> simp [h, ih]
    | param nm =>
      simp only [List.cons_append, matchCore]
      cases parts with
      | nil => rfl
      | cons p rest =>
        cases hd : decodeURIComponent p <;> simp [hd, ih]
    | catchAll nm => rfl

/-! Claim theorems about the matcher -/

/-- C3: for segments `[static "users", param "id"]`, `/users/42` binds
`id = "42"`, `/users` is a non-match (a param cannot match zero remaining
parts), `/users/42/extra` is a non-match (an exhausted segment list requires
every part consumed). -/
theorem matchRoute_param_spec :
    matchRoute [RouteSegment.static (cs "users"), RouteSegment.param (cs "id")] (cs "/users/42")
      = MatchResult.matched [(cs "id", ParamValue.str (cs "42"))]
  ∧ matchRoute [RouteSegment.static (cs "users"), RouteSegment.param (cs "id")] (cs "/users")
      = MatchResult.noMatch
  ∧ matchRoute [RouteSegment.static (cs "users"), RouteSegment.param (cs "id")] (cs "/users/42/extra")
      = MatchResult.noMatch
  ∧ (∀ (n : List Char) segs params,
      matchCore (RouteSegment.param n :: segs) [] params = MatchResult.noMatch)
  ∧ (∀ parts params, matchCore [] parts params
      = if parts = [] then MatchResult.matched params else MatchResult.noMatch) :=
  ⟨by decide, by decide, by decide, fun _ _ _ => rfl, fun _ _ => rfl⟩

/-- C4: a trailing catch-all binds its name to the ordered percent-decoded
remaining parts, the empty sequence included: `/files` gives `rest = []`,
`/files/a/b` gives `rest = ["a", "b"]`. -/
theorem matchRoute_catchAll_spec :
    matchRoute [RouteSegment.static (cs "files"), RouteSegment.catchAll (cs "rest")] (cs "/files")
      = MatchResult.matched [(cs "rest", ParamValue.strList [])]
  ∧ matchRoute [RouteSegment.static (cs "files"), RouteSegment.catchAll (cs "rest")] (cs "/files/a/b")
      = MatchResult.matched [(cs "rest", ParamValue.strList [cs "a", cs "b"])]
  ∧ (∀ (n : List Char) segs parts params ds, decodeAll parts = some ds →
      matchCore (RouteSegment.catchAll n :: segs) parts params
        = MatchResult.matched (setParam params n (ParamValue.strList ds))) := by
  refine ⟨by decide, by decide, ?_⟩
  intro n segs parts params ds h
  simp [matchCore, h]

theorem matchRoute_catchAll_spec_witness :
    decodeAll [cs "a", cs "b"] = some [cs "a", cs "b"]
  ∧ matchCore [RouteSegment.catchAll (cs "rest")] [cs "a", cs "b"] []
      = MatchResult.matched (setParam [] (cs "rest") (ParamValue.strList [cs "a", cs "b"])) :=
  ⟨by decide,
   matchRoute_catchAll_spec.2.2 (cs "rest") [] [cs "a", cs "b"] [] [cs "a", cs "b"] (by decide)⟩

/-- C5: param and catch-all bindings are percent-decoded (`%20` binds the
one-space string), and a malformed escape in a matched part makes the whole
match attempt surface the decode error instead of a silent value. -/
theorem matchRoute_decode_spec :
    matchRoute [RouteSegment.param (cs "x")] (cs "/%20")
      = MatchResult.matched [(cs "x", ParamValue.str (cs " "))]
  ∧ matchRoute [RouteSegment.param (cs "x")] (cs "/%zz") = MatchResult.decodeError
  ∧ (∀ (n : List Char) segs (p : List Char) rest params, decodeURIComponent p = none →
      matchCore (RouteSegment.param n :: segs) (p :: rest) params = MatchResult.decodeError)
  ∧ (∀ (n : List Char) segs parts params, decodeAll parts = none →
      matchCore (RouteSegment.catchAll n :: segs) parts params = MatchResult.decodeError) := by
  refine ⟨by decide, by decide, ?_, ?_⟩
  · intro n segs p rest params h
    simp [matchCore, h]
  · intro n segs parts params h
    simp [matchCore, h]

theorem matchRoute_decode_spec_witness :
    matchCore [RouteSegment.param (cs "x")] [cs "%zz"] [] = MatchResult.decodeError
  ∧ matchCore [RouteSegment.catchAll (cs "r")] [cs "%2"] [] = MatchResult.decodeError :=
  ⟨matchRoute_decode_spec.2.2.1 (cs "x") [] (cs "%zz") [] [] (by decide),
   matchRoute_decode_spec.2.2.2 (cs "r") [] [cs "%2"] [] (by decide)⟩

/-- C6: normalization sends the empty pathname to `/`, leaves `/` alone,
strips exactly one trailing slash from anything else, and consequently a
pathname with one appended slash matches exactly like the pathname itself. -/
theorem normalize_trailing_slash_spec :
    normalizePathname [] = ['/']
  ∧ normalizePathname ['/'] = ['/']
  ∧ (∀ q : List Char, q ≠ [] → normalizePathname (q ++ ['/']) = q)
  ∧ (∀ p : List Char, p ≠ [] → p.getLast? ≠ some '/' → normalizePathname p = p)
  ∧ (∀ segs (p : List Char), p ≠ ['/'] →
      matchRoute segs (p ++ ['/']) = matchRoute segs p) := by
  refine ⟨by decide, by decide, normalizePathname_concat_slash, normalizePathname_no_slash, ?_⟩
  intro segs p _
  unfold matchRoute
  rw [splitPathname_eq, splitPathname_eq, keepNonEmpty_concat_slash]

theorem normalize_trailing_slash_spec_witness :
    normalizePathname (cs "/a/b" ++ ['/']) = cs "/a/b"
  ∧ normalizePathname (cs "/a/b") = cs "/a/b"
  ∧ matchRoute [RouteSegment.static (cs "a"), RouteSegment.static (cs "b")] (cs "/a/b" ++ ['/'])
      = matchRoute [RouteSegment.static (cs "a"), RouteSegment.static (cs "b")] (cs "/a/b") :=
  ⟨normalize_trailing_slash_spec.2.2.1 (cs "/a/b") (by decide),
   normalize_trailing_slash_spec.2.2.2.1 (cs "/a/b") (by decide) (by decide),
   normalize_trailing_slash_spec.2.2.2.2 [RouteSegment.static (cs "a"), RouteSegment.static (cs "b")]
     (cs "/a/b") (by decide)⟩

/-- C7: the segment walk stops at a catch-all, so segments after it never
affect the outcome: matching any list `pre ++ [catchAll n] ++ post` agrees
with matching the prefix `pre ++ [catchAll n]` on every pathname. -/
theorem matchRoute_catchAll_terminates_walk :
    ∀ (pre : List RouteSegment) (n : List Char) (post : List RouteSegment) (p : List Char),
      matchRoute (pre ++ RouteSegment.catchAll n :: post) p
        = matchRoute (pre ++ [RouteSegment.catchAll n]) p := by
  intro pre n post p
  unfold matchRoute
  exact matchCore_catchAll_break pre n post _ _

/-- C10: the match result depends only on the non-empty slash-delimited
parts of the pathname, so consecutive slashes collapse and any number of
trailing slashes is tolerated (`/a//b/` matches exactly like `/a/b`). -/
theorem matchRoute_parts_only :
    (∀ p, splitPathname p = keepNonEmpty (splitOnSlash p))
  ∧ (∀ segs p q, keepNonEmpty (splitOnSlash p) = keepNonEmpty (splitOnSlash q) →
      matchRoute segs p = matchRoute segs q)
  ∧ (∀ segs (p : List Char) n,
      matchRoute segs (p ++ List.replicate n '/') = matchRoute segs p)
  ∧ (∀ segs, matchRoute segs (cs "/a//b/") = matchRoute segs (cs "/a/b")) := by
  refine ⟨splitPathname_eq, ?_, ?_, ?_⟩
  · intro segs p q h
    unfold matchRoute
    rw [splitPathname_eq, splitPathname_eq, h]
  · intro segs p n
    unfold matchRoute
    rw [splitPathname_eq, splitPathname_eq, keep_split_replicate]
  · intro segs
    unfold matchRoute
    rw [splitPathname_eq, splitPathname_eq]
    have h : keepNonEmpty (splitOnSlash (cs "/a//b/")) = keepNonEmpty (splitOnSlash (cs "/a/b")) := by
      decide
    rw [h]

theorem matchRoute_parts_only_witness :
    matchRoute [RouteSegment.param (cs "x")] (cs "//c/")
      = matchRoute [RouteSegment.param (cs "x")] (cs "/c") :=
  matchRoute_parts_only.2.1 [RouteSegment.param (cs "x")] (cs "//c/") (cs "/c") (by decide)

/-! First-match semantics of the route table loop -/

theorem matchFirst_noRoute_iff (routes : List Route) (p : List Char) :
    matchFirst routes p = FirstResult.noRoute ↔
      ∀ r ∈ routes, matchRoute r.segments p = MatchResult.noMatch := by
  induction routes with
  | nil => simp [matchFirst]
  | cons r rs ih =>
    simp only [matchFirst]
    cases hm : matchRoute r.segments p with
    | decodeError =>
      simp only [List.mem_cons]
      constructor
      · intro h; exact absurd h (by simp)
      · intro h
        have := h r (Or.inl rfl)
        rw [hm] at this
        exact absurd this (by simp)
    | noMatch =>
      simp only [List.mem_cons]
      rw [ih]
      constructor
      · intro h r' hr'
        rcases hr' with h1 | h2
        · subst h1; exact hm
        · exact h r' h2
      · intro h r' hr'
        exact h r' (Or.inr hr')
    | matched ps =>
      simp only [List.mem_cons]
      constructor
      · intro h; exact absurd h (by simp)
      · intro h
        have := h r (Or.inl rfl)
        rw [hm] at this
        exact absurd this (by simp)

theorem matchFirst_found_iff (routes : List Route) (p : List Char) (r : Route) (ps : Params) :
    matchFirst routes p = FirstResult.found r ps ↔
      ∃ pre post, routes = pre ++ r :: post
        ∧ (∀ r' ∈ pre, matchRoute r'.segments p = MatchResult.noMatch)
        ∧ matchRoute r.segments p = MatchResult.matched ps := by
  induction routes with
  | nil =>
    simp only [matchFirst]
    constructor
    · intro h; exact absurd h (by simp)
    · rintro ⟨pre, post, habs, -, -⟩
      exact absurd habs.symm (List.append_ne_nil_of_right_ne_nil pre (by simp))
  | cons r0 rs ih =>
    simp only [matchFirst]
    cases hm : matchRoute r0.segments p with
    | decodeError =>
      constructor
      · intro h; exact absurd h (by simp)
      · rintro ⟨pre, post, hsplit, hpre, hr⟩
        cases pre with
        | nil =>
          simp at hsplit
          rw [hsplit.1] at hm
          rw [hm] at hr
          exact absurd hr (by simp)
        | cons q qre =>
          simp at hsplit
          have := hpre q (by simp)
          rw [hsplit.1] at hm
          rw [hm] at this
          exact absurd this (by simp)
    | noMatch =>
      rw [ih]
      constructor
      · rintro ⟨pre, post, hsplit, hpre, hr⟩
        refine ⟨r0 :: pre, post, by simp [hsplit], ?_, hr⟩
        intro r' hr'
        rcases List.mem_cons.mp hr' with h1 | h2
        · subst h1; exact hm
        · exact hpre r' h2
      · rintro ⟨pre, post, hsplit, hpre, hr⟩
        cases pre with
        | nil =>
          simp at hsplit
          rw [hsplit.1] at hm
          rw [hm] at hr
          exact absurd hr (by simp)
        | cons q qre =>
          simp at hsplit
          exact ⟨qre, post, hsplit.2, fun r' h => hpre r' (List.mem_cons_of_mem q h), hr⟩
    | matched ps0 =>
      constructor
      · intro h
        injection h with h1 h2
        subst h1
        subst h2
        exact ⟨[], rs, rfl, by simp, hm⟩
      · rintro ⟨pre, post, hsplit, hpre, hr⟩
        cases pre with
        | nil =>
          simp at hsplit
          obtain ⟨h1, h2⟩ := hsplit
          subst h1
          rw [hm] at hr
          injection hr with hps
          subst hps
          rfl
        | cons q qre =>
          simp at hsplit
          have := hpre q (by simp)
          rw [hsplit.1] at hm
          rw [hm] at this
          exact absurd this (by simp)

/-! Loader cancellation lemmas -/

theorem cancelLast_length (l : List Bool) : (cancelLast l).length = l.length := by
  induction l with
  | nil => rfl
  | cons b bs ih =>
    cases bs with
    | nil => rfl
    | cons b2 bs2 => simp only [cancelLast, List.length_cons] at ih ⊢; omega

theorem cancelLast_getD (l : List Bool)
    (hprev : ∀ i, i + 1 < l.length → l.getD i true = true) :
    ∀ j, j < l.length → (cancelLast l).getD j true = true := by
  induction l with
  | nil => intro j hj; simp at hj
  | cons b bs ih =>
    cases bs with
    | nil =>
      intro j hj
      have hj0 : j = 0 := by simp at hj; omega
      subst hj0
      rfl
    | cons b2 bs2 =>
      intro j hj
      cases j with
      | zero =>
        have hb := hprev 0 (by simp)
        simp only [cancelLast, List.getD_cons_zero]
        simpa using hb
      | succ j =>
        simp only [cancelLast, List.getD_cons_succ]
        apply ih
        · intro i hi
          have := hprev (i + 1) (by simp at hi ⊢; omega)
          simpa using this
        · simp at hj ⊢; omega

theorem loaderStep_inv (s : LoaderState) (e : LoadEvent) (h : LoaderInv s) :
    LoaderInv (loaderStep s e) := by
  cases e with
  | navigate =>
    constructor
    · intro j hj
      have hflags : (loaderStep s LoadEvent.navigate).flags = cancelLast s.flags ++ [false] := rfl
      rw [hflags] at hj ⊢
      have hlen := cancelLast_length s.flags
      have hj' : j < s.flags.length := by
        simp only [List.length_append, List.length_cons, List.length_nil, hlen] at hj
        omega
      rw [List.getD_append _ _ _ _ (by omega)]
      exact cancelLast_getD s.flags h.1 j hj'
    · intro k o hko
      exact absurd hko (by simp [loaderStep])
  | settle k o =>
    by_cases hc : s.flags.getD k true = false
    · have hstep : loaderStep s (LoadEvent.settle k o) = ⟨s.flags, Display.committed k o⟩ := by
        simp only [loaderStep]
        rw [if_pos hc]
      rw [hstep]
      have hklen : k < s.flags.length := by
        by_contra hge
        rw [List.getD_eq_default _ _ (by omega)] at hc
        exact absurd hc (by simp)
      have hknot : ¬ (k + 1 < s.flags.length) := by
        intro hlt
        rw [h.1 k hlt] at hc
        exact absurd hc (by simp)
      constructor
      · exact h.1
      · intro k' o' hk'
        injection hk' with h1 h2
        subst h1
        show k + 1 = s.flags.length
        omega
    · have hstep : loaderStep s (LoadEvent.settle k o) = s := by
        simp only [loaderStep]
        rw [if_neg hc]
      rw [hstep]
      exact h

theorem loaderRun_inv (es : List LoadEvent) : LoaderInv (loaderRun es) := by
  suffices h : ∀ s, LoaderInv s → LoaderInv (es.foldl loaderStep s) by
    refine h loaderInit ⟨?_, ?_⟩
    · intro j hj; simp [loaderInit] at hj
    · intro k o hko; exact absurd hko (by simp [loaderInit])
  induction es with
  | nil => intro s hs; exact hs
  | cons e es ih => intro s hs; exact ih _ (loaderStep_inv s e hs)

/-- C2: at most one load result is committed per route transition: every
attempt before the most recent one has its cancellation flag set and its
result is never applied; whatever is displayed always belongs to the most
recent attempt, and in the two-quick-navigations scenario the late
settlement of the first attempt leaves the display untouched while the
settlement of the second attempt commits. -/
theorem loader_commits_latest :
    (∀ es k o, (loaderRun es).display = Display.committed k o →
      k + 1 = (loaderRun es).flags.length)
  ∧ (∀ es j, j + 1 < (loaderRun es).flags.length → (loaderRun es).flags.getD j true = true)
  ∧ loaderRun [LoadEvent.navigate, LoadEvent.navigate, LoadEvent.settle 0 LoadOutcome.success]
      = ⟨[true, false], Display.loading⟩
  ∧ loaderRun [LoadEvent.navigate, LoadEvent.navigate, LoadEvent.settle 0 LoadOutcome.failure]
      = ⟨[true, false], Display.loading⟩
  ∧ loaderRun [LoadEvent.navigate, LoadEvent.navigate, LoadEvent.settle 0 LoadOutcome.success,
      LoadEvent.settle 1 LoadOutcome.success]
      = ⟨[true, false], Display.committed 1 LoadOutcome.success⟩ :=
  ⟨fun es k o h => (loaderRun_inv es).2 k o h,
   fun es j hj => (loaderRun_inv es).1 j hj,
   by decide, by decide, by decide⟩

theorem loader_commits_latest_witness :
    1 + 1 = (loaderRun [LoadEvent.navigate, LoadEvent.navigate,
      LoadEvent.settle 1 LoadOutcome.success]).flags.length
  ∧ (loaderRun [LoadEvent.navigate, LoadEvent.navigate]).flags.getD 0 true = true :=
  ⟨loader_commits_latest.1 [LoadEvent.navigate, LoadEvent.navigate,
      LoadEvent.settle 1 LoadOutcome.success] 1 LoadOutcome.success (by decide),
   loader_commits_latest.2.1 [LoadEvent.navigate, LoadEvent.navigate] 0 (by decide)⟩

/-- C1: the route table loop returns exactly the first route in table order
whose segments match the pathname; it reports the not-found fallback iff no
route matches; and with `/a/[id]` before `/a/b` in the table, pathname
`/a/b` matches the parameter route (table order wins). -/
theorem matchFirst_spec :
    (∀ routes p, matchFirst routes p = FirstResult.noRoute ↔
      ∀ r ∈ routes, matchRoute r.segments p = MatchResult.noMatch)
  ∧ (∀ routes p r ps, matchFirst routes p = FirstResult.found r ps ↔
      ∃ pre post, routes = pre ++ r :: post
        ∧ (∀ r' ∈ pre, matchRoute r'.segments p = MatchResult.noMatch)
        ∧ matchRoute r.segments p = MatchResult.matched ps)
  ∧ matchFirst [routeParamAId, routeStaticAB] (cs "/a/b")
      = FirstResult.found routeParamAId [(cs "id", ParamValue.str (cs "b"))] :=
  ⟨matchFirst_noRoute_iff, matchFirst_found_iff, by decide⟩

theorem matchFirst_spec_witness :
    matchFirst [routeStaticAB] (cs "/nope") = FirstResult.noRoute ∧
    matchFirst [routeStaticAB, routeParamAId] (cs "/a/c")
      = FirstResult.found routeParamAId [(cs "id", ParamValue.str (cs "c"))] :=
  ⟨(matchFirst_spec.1 [routeStaticAB] (cs "/nope")).mpr (by decide),
   (matchFirst_spec.2.1 [routeStaticAB, routeParamAId] (cs "/a/c") routeParamAId
      [(cs "id", ParamValue.str (cs "c"))]).mpr
    ⟨[routeStaticAB], [], rfl, by decide, by decide⟩⟩

/-! Metadata applier lemmas -/

theorem upsertDescription_idem (ms : List MetaTag) (v : String) :
    upsertDescription (upsertDescription ms v) v = upsertDescription ms v := by
  induction ms with
  | nil => simp [upsertDescription]
  | cons t ts ih =>
    by_cases h : t.name = "description"
    · simp [upsertDescription, h]
    · simp [upsertDescription, h, ih]

theorem applyMetadata_idem (meta : Option Metadata) (doc : Doc) :
    applyMetadata meta (applyMetadata meta doc) = applyMetadata meta doc := by
  cases meta with
  | none => rfl
  | some m =>
    cases ht : m.title with
    | none =>
      cases hd : m.description with
      | none => simp [applyMetadata, ht, hd]
      | some d => simp [applyMetadata, ht, hd, upsertDescription_idem]
    | some t =>
      cases hd : m.description with
      | none => simp [applyMetadata, ht, hd]
      | some d => simp [applyMetadata, ht, hd, upsertDescription_idem]

theorem upsertDescription_count (ms : List MetaTag) (v : String) :
    ((upsertDescription ms v).filter (fun t => t.name = "description")).length
      = max 1 ((ms.filter (fun t => t.name = "description")).length) := by
  induction ms with
  | nil => simp [upsertDescription]
  | cons t ts ih =>
    by_cases h : t.name = "description"
    · simp [upsertDescription, h]
    · simp [upsertDescription, h, ih]

theorem upsertDescription_head (ms : List MetaTag) (v : String) :
    ((upsertDescription ms v).filter (fun t => t.name = "description")).head?
      = some ⟨"description", v⟩ := by
  induction ms with
  | nil => simp [upsertDescription]
  | cons t ts ih =>
    by_cases h : t.name = "description"
    · simp [upsertDescription, h]
    · simp [upsertDescription, h, ih]

/-- C9 as stated fails on the code: applying a metadata record carrying
only the title "X" twice to a document without a description tag leaves
zero description tags, not exactly one — the title-only record never
touches the description entries. -/
theorem applyMetadata_claim_counterexample :
    descCount (applyMetadata (some ⟨some "X", none⟩)
      (applyMetadata (some ⟨some "X", none⟩) ⟨"", []⟩)) ≠ 1 := by
  decide

/-- C9 amended: the applier is a no-op on an absent record and idempotent;
the description branch upserts a single entry (the first existing tag is
overwritten, one entry is created when absent, and the description-tag
count becomes `max 1` of the old count, so no duplicate is ever created);
a record without a description leaves the meta tags unchanged; and applying
the title-only record twice sets the title to "X" both times while leaving
the description tags of the document exactly as they were. -/
theorem applyMetadata_amended :
    (∀ doc, applyMetadata none doc = doc)
  ∧ (∀ meta doc, applyMetadata meta (applyMetadata meta doc) = applyMetadata meta doc)
  ∧ (∀ ms v, ((upsertDescription ms v).filter (fun t => t.name = "description")).length
      = max 1 ((ms.filter (fun t => t.name = "description")).length))
  ∧ (∀ ms v, ((upsertDescription ms v).filter (fun t => t.name = "description")).head?
      = some ⟨"description", v⟩)
  ∧ (∀ m doc, m.description = none → (applyMetadata (some m) doc).metas = doc.metas)
  ∧ (∀ doc, (applyMetadata (some ⟨some "X", none⟩) doc).title = "X"
      ∧ (applyMetadata (some ⟨some "X", none⟩)
          (applyMetadata (some ⟨some "X", none⟩) doc)).title = "X"
      ∧ (applyMetadata (some ⟨some "X", none⟩)
          (applyMetadata (some ⟨some "X", none⟩) doc)).metas = doc.metas) := by
  refine ⟨fun _ => rfl, applyMetadata_idem, upsertDescription_count, upsertDescription_head,
    ?_, ?_⟩
  · intro m doc hd
    cases ht : m.title with
    | none => simp [applyMetadata, ht, hd]
    | some t => simp [applyMetadata, ht, hd]
  · intro doc
    exact ⟨rfl, rfl, rfl⟩

theorem applyMetadata_amended_witness :
    (applyMetadata (some ⟨some "T", none⟩) ⟨"t0", [⟨"description", "d"⟩]⟩).metas
      = [⟨"description", "d"⟩] :=
  applyMetadata_amended.2.2.2.2.1 ⟨some "T", none⟩ ⟨"t0", [⟨"description", "d"⟩]⟩ rfl

/-! Generator lemmas -/

theorem mem_insertByPath (a r : RouteRecord) (l : List RouteRecord) :
    a ∈ insertByPath r l ↔ a = r ∨ a ∈ l := by
  induction l with
  | nil => simp [insertByPath]
  | cons x xs ih =>
    simp only [insertByPath]
    by_cases h : lexLt r.path x.path
    · simp [h, List.mem_cons]
    · simp [h, List.mem_cons, ih]
      tauto

theorem mem_foldl_insertByPath (recs : List RouteRecord) :
    ∀ acc a, (a ∈ recs.foldl (fun acc r => insertByPath r acc) acc ↔ a ∈ acc ∨ a ∈ recs) := by
  induction recs with
  | nil => intro acc a; simp
  | cons r rs ih =>
    intro acc a
    simp only [List.foldl_cons]
    rw [ih]
    rw [mem_insertByPath]
    simp [List.mem_cons]
    tauto

theorem generateFsRoutes_not_ignored (files : List (List Char)) (r : RouteRecord)
    (h : r ∈ generateFsRoutes files) : isIgnoredRouteFile r.file = false := by
  simp only [generateFsRoutes] at h
  rw [mem_foldl_insertByPath] at h
  rcases h with h | h
  · simp at h
  · rw [List.mem_map] at h
    obtain ⟨rel, hrel, hr⟩ := h
    rw [List.mem_filter] at hrel
    have h2 := hrel.2
    rw [← hr]
    simpa using h2

theorem parseSegment_catchAll_wrap (name : List Char) :
    parseSegment (cs "[..." ++ name ++ cs "]") = RouteSegment.catchAll name := by
  have hpre : (cs "[...").isPrefixOf (cs "[..." ++ name ++ cs "]") = true := by
    rw [ List.isPrefixOf_iff_prefix]
    exact (List.prefix_append _ _).trans (by rw [List.append_assoc])
  have hsuf : (cs "]").isSuffixOf (cs "[..." ++ name ++ cs "]") = true := by
    rw [List.isSuffixOf_iff_suffix]
    rw [List.append_assoc]
    exact (List.suffix_append name (cs "]")).trans (List.suffix_append _ _)
  simp only [parseSegment, hpre, hsuf, Bool.and_self, if_pos]
  congr 1
  rw [List.append_assoc]
  have hd : ((cs "[..." ++ (name ++ cs "]")).drop 4) = name ++ cs "]" := by
    have : (cs "[...").length = 4 := by decide
    rw [← this, List.drop_left]
  rw [hd]
  exact List.dropLast_concat

theorem parseSegment_param_wrap (name : List Char)
    (h : (cs "[...").isPrefixOf (cs "[" ++ name ++ cs "]") = false) :
    parseSegment (cs "[" ++ name ++ cs "]") = RouteSegment.param name := by
  have hpre : (cs "[").isPrefixOf (cs "[" ++ name ++ cs "]") = true := by
    rw [ List.isPrefixOf_iff_prefix, List.append_assoc]
    exact List.prefix_append _ _
  have hsuf : (cs "]").isSuffixOf (cs "[" ++ name ++ cs "]") = true := by
    rw [List.isSuffixOf_iff_suffix]
    exact List.suffix_append _ _
  unfold parseSegment
  rw [h, hpre, hsuf]
  simp only [Bool.false_and, Bool.and_self]
  rw [if_neg (by simp), if_pos trivial]
  congr 1
  rw [List.append_assoc, show (1 : Nat) = (cs "[").length from rfl, List.drop_left]
  rw [show cs "]" = [']'] from rfl]
  exact List.dropLast_concat

theorem parseSegment_static (seg : List Char)
    (h : ((cs "[").isPrefixOf seg && (cs "]").isSuffixOf seg) = false) :
    parseSegment seg = RouteSegment.static seg := by
  have h4 : ((cs "[...").isPrefixOf seg && (cs "]").isSuffixOf seg) = false := by
    cases h3 : (cs "[...").isPrefixOf seg with
    | false => simp
    | true =>
      have h1 : (cs "[").isPrefixOf seg = true := by
        rw [ List.isPrefixOf_iff_prefix] at h3 ⊢
        exact (show cs "[" <+: cs "[..." from ⟨cs "...", by decide⟩).trans h3
      rw [h1, Bool.true_and] at h
      simp [h]
  simp [parseSegment, h4, h]

/-- C8: the generator pipeline on the four-file pages directory produces
exactly the three routes `/`, `/files/[...rest]` (catch-all), and
`/users/[id]` (parameter), excluding the underscore subtree; fragments are
classified catch-all / parameter / static by their bracket wrapping; a
trailing `index` component is elided and the root `index` maps to `/`; and
no generated record ever comes from an ignored file. -/
theorem generateFsRoutes_spec :
    generateFsRoutes [cs "index.tsx", cs "users/[id].tsx", cs "files/[...rest].tsx",
        cs "_ignored/secret.tsx"]
      = [⟨cs "index.tsx", cs "/", []⟩,
         ⟨cs "files/[...rest].tsx", cs "/files/[...rest]",
           [RouteSegment.static (cs "files"), RouteSegment.catchAll (cs "rest")]⟩,
         ⟨cs "users/[id].tsx", cs "/users/[id]",
           [RouteSegment.static (cs "users"), RouteSegment.param (cs "id")]⟩]
  ∧ (∀ name, parseSegment (cs "[..." ++ name ++ cs "]") = RouteSegment.catchAll name)
  ∧ (∀ name, (cs "[...").isPrefixOf (cs "[" ++ name ++ cs "]") = false →
      parseSegment (cs "[" ++ name ++ cs "]") = RouteSegment.param name)
  ∧ (∀ seg, ((cs "[").isPrefixOf seg && (cs "]").isSuffixOf seg) = false →
      parseSegment seg = RouteSegment.static seg)
  ∧ (∀ files r, r ∈ generateFsRoutes files → isIgnoredRouteFile r.file = false)
  ∧ fileToRoute (cs "a/index") = (cs "/a", [RouteSegment.static (cs "a")])
  ∧ fileToRoute (cs "index") = (cs "/", []) :=
  ⟨by decide, parseSegment_catchAll_wrap, parseSegment_param_wrap, parseSegment_static,
   generateFsRoutes_not_ignored, by decide, by decide⟩

theorem generateFsRoutes_spec_witness :
    parseSegment (cs "[" ++ cs "id" ++ cs "]") = RouteSegment.param (cs "id")
  ∧ parseSegment (cs "users") = RouteSegment.static (cs "users")
  ∧ isIgnoredRouteFile (cs "a.tsx") = false :=
  ⟨generateFsRoutes_spec.2.2.1 (cs "id") (by decide),
   generateFsRoutes_spec.2.2.2.1 (cs "users") (by decide),
   generateFsRoutes_spec.2.2.2.2.1 [cs "a.tsx"]
     ⟨cs "a.tsx", cs "/a", [RouteSegment.static (cs "a")]⟩ (by decide)⟩
